import Mathlib

/-!
Verification of the transition-probability pipeline of
`scripts/calculate_transition_probability.py`: the location normalizer
(`clean_location_name`), the per-agent transition classifier inside
`calculate_transition_probability`, the movement-history loader
(`parse_agents_file`) and the run/instance aggregator
(`process_instance_type`).  Python strings are modelled as Lean `String`
(and as `List Char` where character-level splitting matters); a possibly
missing (NaN/None) value is modelled as `Option`; the per-run CSV file is
modelled as `Except Unit (List Row)` (`Except.error` standing for an I/O or
parse exception caught by the `try/except` of `parse_agents_file`).
-/

namespace RohingyaFlee

/-- One movement record of one agent, the dict
`{'day': day, 'location': location}` appended in `parse_agents_file`
(lines 63-66).  The location may be missing (pandas NaN propagated by
`clean_location_name`). -/
structure Movement where
  day : Int
  location : Option String
  deriving DecidableEq

/-- Python membership test `location in IDP_CAMPS` for a possibly-missing
location value: NaN/None is a member of no set of strings. -/
def inLocSet (loc : Option String) (S : List String) : Bool :=
  match loc with
  | none => false
  | some s => decide (s ∈ S)

/-- Python equality test `location == COXS_BAZAR` for a possibly-missing
location value: NaN/None is equal to no string. -/
def isLoc (loc : Option String) (t : String) : Bool :=
  match loc with
  | none => false
  | some s => decide (s = t)

/-- The per-agent scanning loop of `calculate_transition_probability`
(lines 94-112 of the source): `staged` is the flag `went_to_idp_first`,
the returned boolean is `went_to_coxs_after_idp`.  The loop sets the flag
on the first staging-set location seen, returns `true` (breaking the scan)
on a destination location seen while the flag is set, and otherwise
continues down the history. -/
def transitionScan (staging : List String) (dest : String) :
    List Movement → Bool → Bool
  | [], _ => false
  | m :: rest, staged =>
    if inLocSet m.location staging && !staged then
      transitionScan staging dest rest true
    else if isLoc m.location dest && staged then
      true
    else
      transitionScan staging dest rest staged

/-- Whether one agent's history is classified as transitioned: the scan
of lines 94-112 started with the flag `went_to_idp_first = False`. -/
def agentTransitioned (staging : List String) (dest : String)
    (movements : List Movement) : Bool :=
  transitionScan staging dest movements false

/-- The hardcoded staging set of `calculate_transition_probability`
(lines 86-87): the IDP camps, excluding Cox's Bazar. -/
def IDP_CAMPS : List String :=
  ["Sittwe", "Pauktaw", "Myebon", "Maungdaw", "Kyauktaw", "Kyaukpyu",
   "Rathedaung", "Ramree", "Buthidaung", "Paletwa"]

/-- The hardcoded destination location (line 89); the apostrophe of
"Cox's Bazar" is written as `Char.ofNat 39`. -/
def COXS_BAZAR : String :=
  String.mk ['C', 'o', 'x', Char.ofNat 39, 's', ' ', 'B', 'a', 'z', 'a', 'r']

/-- The triple returned by `calculate_transition_probability` (line 120):
`(transition_probability, transition_agents, total_agents)`.  The
probability is an exact rational standing for the Python float
`transition_agents / total_agents`. -/
structure RunResult where
  transition_probability : ℚ
  transition_agents : ℕ
  total_agents : ℕ
  deriving DecidableEq

/-- `calculate_transition_probability` (lines 80-120): the movement map is
an association list `agent_id ↦ history`; `total_agents` is its size,
`transition_agents` the number of entries whose history the per-agent loop
classifies as transitioned, and the probability is their quotient, `0` by
convention when the map is empty (lines 114-118 — the division is guarded,
so no exception is possible). -/
def calculate_transition_probability
    (agent_movements : List (ℕ × List Movement)) : RunResult :=
  let total_agents := agent_movements.length
  let transition_agents :=
    (agent_movements.filter
      (fun p => agentTransitioned IDP_CAMPS COXS_BAZAR p.2)).length
  { transition_probability :=
      if 0 < total_agents then (transition_agents : ℚ) / (total_agents : ℚ)
      else 0
    transition_agents := transition_agents
    total_agents := total_agents }

/-- Python's `str.split(sep)` for a one-character separator, over the
character list of the string: `splitCh c l` is the list of maximal
separator-free segments of `l`; it is never empty (splitting the empty
string gives `[[]]`, as `"".split(":") == ['']` in Python).  The `[] => [[]]`
inner branch is unreachable (the recursive result is never empty). -/
def splitCh (c : Char) : List Char → List (List Char)
  | [] => [[]]
  | a :: rest =>
    match splitCh c rest with
    | [] => [[]]
    | s :: ss => if a = c then [] :: s :: ss else (a :: s) :: ss

/-- Python's `location_str.startswith("L:")` on the character list. -/
def startsWithLColon : List Char → Bool
  | a :: b :: _ => decide (a = 'L') && decide (b = ':')
  | _ => false

/-- The final `c`-delimited component of a character list: everything after
the last occurrence of `c` (the whole list when `c` does not occur).  This
is the specification-side reading of "return only the final colon-delimited
component"; it is proved below to agree with the source's
`location_str.split(":")[-1]`. -/
def lastComponent (c : Char) : List Char → List Char
  | [] => []
  | a :: rest =>
    if c ∈ rest then lastComponent c rest
    else if a = c then rest
    else a :: rest

/-- `clean_location_name` (lines 42-49 of the source): a missing (NaN)
location propagates unchanged; a string starting with `"L:"` is split on
`":"` and its last part (`parts[-1]`) is returned; any other string is
returned unchanged.  The function is total: every input is mapped to a
result, no exception path exists. -/
def clean_location_name : Option String → Option String
  | none => none
  | some s =>
    if startsWithLColon s.toList then
      some (String.mk ((splitCh ':' s.toList).getLastD []))
    else
      some s

/-- The final colon-delimited component of a string, as the specification
words it. -/
def finalComponent (s : String) : String :=
  String.mk (lastComponent ':' s.toList)

/-- One row of the agents CSV as seen by the loop of `parse_agents_file`
(lines 54-66): the two alternate agent-id columns, the two alternate time
columns (a missing/unresolvable value is `none`, matching
`row.get(..., None)` returning `None`), and the location column after
`clean_location_name` was applied to it (line 51). -/
structure Row where
  rank_agentid : Option ℕ
  agent_id : Option ℕ
  time : Option Int
  timestep : Option Int
  current_location : Option String
  deriving DecidableEq

/-- `row.get('rank-agentid', row.get('agent_id', None))` (line 56). -/
def rowAgentId (r : Row) : Option ℕ :=
  r.rank_agentid.orElse (fun _ => r.agent_id)

/-- `row.get('time', row.get('timestep', None))` (line 57). -/
def rowDay (r : Row) : Option Int :=
  r.time.orElse (fun _ => r.timestep)

/-- `agent_movements[agent_id].append({...})` on a `defaultdict(list)`
(lines 26 and 63-66), with the map modelled as an association list in
key-first-appearance order: append the movement to the existing entry of
`i`, or create the entry `(i, [m])` at the end. -/
def addMovement : List (ℕ × List Movement) → ℕ → Movement →
    List (ℕ × List Movement)
  | [], i, m => [(i, [m])]
  | (j, h) :: rest, i, m =>
    if i = j then (j, h ++ [m]) :: rest
    else (j, h) :: addMovement rest i m

/-- The history stored for agent `i` in the association-list map
(`[]` when no entry exists, as for a `defaultdict(list)`). -/
def histOf (acc : List (ℕ × List Movement)) (i : ℕ) : List Movement :=
  match acc with
  | [] => []
  | (j, h) :: rest => if j = i then h else histOf rest i

/-- The body of the row loop of `parse_agents_file` (lines 54-66): a row
whose resolved agent id or resolved time is `None` is skipped (`continue`,
line 60-61); otherwise the movement is appended to that agent's history. -/
def processRow (acc : List (ℕ × List Movement)) (r : Row) :
    List (ℕ × List Movement) :=
  match rowAgentId r, rowDay r with
  | some i, some d => addMovement acc i ⟨d, r.current_location⟩
  | _, _ => acc

/-- The whole row loop: fold `processRow` over all rows of the file.
(Chunked reading, lines 31-33, concatenates the same loop over chunk
concatenation; the fold over the full row list is its composition.) -/
def buildMovements (rows : List Row) : List (ℕ × List Movement) :=
  rows.foldl processRow []

/-- Stable insertion of a movement into a day-sorted history: `x` goes in
front of the first element whose day is `≥ x.day` not earlier than it. -/
def insertByDay (x : Movement) : List Movement → List Movement
  | [] => [x]
  | y :: ys => if x.day ≤ y.day then x :: y :: ys else y :: insertByDay x ys

/-- `sorted(agent_movements[agent_id], key=lambda x: x['day'])`
(lines 71-72): a stable sort by day (Python's `sorted` is stable). -/
def sortByDay : List Movement → List Movement
  | [] => []
  | x :: xs => insertByDay x (sortByDay xs)

/-- The contents handed to `parse_agents_file`: either the parsed rows of
the CSV, or `Except.error ()` for any exception raised while reading
(caught by the `try/except` of lines 23-78). -/
def FileData : Type := Except Unit (List Row)

/-- `parse_agents_file` (lines 16-78): on any exception return the empty
map `{}` (lines 76-78); otherwise build the per-agent histories from the
rows and sort each history by day. -/
def parse_agents_file (fd : FileData) : List (ℕ × List Movement) :=
  match fd with
  | Except.error _ => []
  | Except.ok rows => (buildMovements rows).map (fun p => (p.1, sortByDay p.2))

/-- The run loop of `process_instance_type` (lines 140-161), over the runs
of one instance in sorted order.  Each run directory either misses its
`agents.out.0` artifact (`none`: warning, skip, line 144-146) or carries
file data; a run whose parsed movement map is empty is also skipped with a
warning (lines 153-155); otherwise the run's transition probability is
collected.  Returns the collected probabilities together with the number
of warnings issued. -/
def scanRuns : List (Option FileData) → List ℚ × ℕ
  | [] => ([], 0)
  | r :: rest =>
    let acc := scanRuns rest
    match r with
    | none => (acc.1, acc.2 + 1)
    | some fd =>
      let m := parse_agents_file fd
      if m = [] then (acc.1, acc.2 + 1)
      else ((calculate_transition_probability m).transition_probability :: acc.1,
            acc.2)

/-- `np.mean` over a list of exact rationals (line 168). -/
def npMean (l : List ℚ) : ℚ := l.sum / (l.length : ℚ)

/-- The sample variance with denominator `n - 1`, the square of
`np.std(..., ddof=1)` (line 169), kept exact in ℚ. -/
def sampleVar (l : List ℚ) : ℚ :=
  (l.map (fun x => (x - npMean l) ^ 2)).sum / ((l.length : ℚ) - 1)

/-- `np.std(transition_probabilities, ddof=1) if len > 1 else 0.0`
(line 169).  The square root forces the value into ℝ and the definition
out of the executable fragment; everything feeding it stays exact. -/
noncomputable def instanceStd (l : List ℚ) : ℝ :=
  if 1 < l.length then Real.sqrt ((sampleVar l : ℚ) : ℝ) else 0

/-- `process_instance_type` (lines 122-171), abstracted over the
already-discovered, already-sorted run list: when no run produced a
probability the instance yields `none` (the `(None, None, None)` return of
lines 163-165); otherwise the mean, the sample standard deviation and the
probability list (lines 167-171). -/
noncomputable def process_instance_type (runs : List (Option FileData)) :
    Option (ℚ × ℝ × List ℚ) :=
  let ps := (scanRuns runs).1
  if ps = [] then none
  else some (npMean ps, instanceStd ps, ps)

/-! ### Lemmas about the character-level splitter and the normalizer -/

/-- Unfolding equation of `splitCh` on a cons, given the split of the
tail. -/
theorem splitCh_cons (c a : Char) (rest s : List Char) (ss : List (List Char))
    (hr : splitCh c rest = s :: ss) :
    splitCh c (a :: rest) =
      if a = c then [] :: s :: ss else (a :: s) :: ss := by
  rw [splitCh, hr]

theorem splitCh_ne_nil (c : Char) (l : List Char) : splitCh c l ≠ [] := by
  induction l with
  | nil => simp [splitCh]
  | cons a rest ih =>
    cases hr : splitCh c rest with
    | nil => exact absurd hr ih
    | cons s ss =>
      rw [splitCh_cons c a rest s ss hr]
      split <;> simp

theorem splitCh_of_not_mem {c : Char} {l : List Char} (h : c ∉ l) :
    splitCh c l = [l] := by
  induction l with
  | nil => rfl
  | cons a rest ih =>
    rw [List.mem_cons, not_or] at h
    rw [splitCh_cons c a rest rest [] (ih h.2),
      if_neg (fun e : a = c => h.1 e.symm)]

theorem eq_of_splitCh_single {c : Char} {l t : List Char}
    (h : splitCh c l = [t]) : t = l ∧ c ∉ l := by
  induction l generalizing t with
  | nil =>
    rw [splitCh] at h
    injection h with h1 _
    exact ⟨h1.symm, by simp [← h1]⟩
  | cons a rest ih =>
    cases hr : splitCh c rest with
    | nil => exact absurd hr (splitCh_ne_nil c rest)
    | cons s ss =>
      rw [splitCh_cons c a rest s ss hr] at h
      by_cases hac : a = c
      · rw [if_pos hac] at h
        simp at h
      · rw [if_neg hac] at h
        injection h with h1 h2
        subst h2
        obtain ⟨hs, hc⟩ := ih hr
        subst hs
        refine ⟨h1.symm, ?_⟩
        rw [List.mem_cons, not_or]
        exact ⟨fun e => hac e.symm, hc⟩

theorem lastComponent_of_not_mem {c : Char} {l : List Char} (h : c ∉ l) :
    lastComponent c l = l := by
  induction l with
  | nil => rfl
  | cons a rest ih =>
    rw [List.mem_cons, not_or] at h
    rw [lastComponent, if_neg h.2, if_neg (fun e : a = c => h.1 e.symm)]

theorem not_mem_lastComponent (c : Char) (l : List Char) :
    c ∉ lastComponent c l := by
  induction l with
  | nil => simp [lastComponent]
  | cons a rest ih =>
    rw [lastComponent]
    by_cases h1 : c ∈ rest
    · rw [if_pos h1]; exact ih
    · rw [if_neg h1]
      by_cases h2 : a = c
      · rw [if_pos h2]; exact h1
      · rw [if_neg h2, List.mem_cons, not_or]
        exact ⟨fun e => h2 e.symm, h1⟩

/-- The source's `parts[-1]` after `location_str.split(":")` is exactly the
final colon-delimited component of the string. -/
theorem splitCh_getLastD (c : Char) (l : List Char) :
    (splitCh c l).getLastD [] = lastComponent c l := by
  induction l with
  | nil => rfl
  | cons a rest ih =>
    cases hr : splitCh c rest with
    | nil => exact absurd hr (splitCh_ne_nil c rest)
    | cons s ss =>
      rw [splitCh_cons c a rest s ss hr]
      rw [hr] at ih
      by_cases hac : a = c
      · rw [if_pos hac, List.getLastD_cons, lastComponent]
        by_cases h1 : c ∈ rest
        · rw [if_pos h1, ← ih]
        · rw [if_neg h1, if_pos hac, ← lastComponent_of_not_mem h1, ← ih]
      · rw [if_neg hac]
        cases ss with
        | nil =>
          obtain ⟨hs, hc⟩ := eq_of_splitCh_single hr
          subst hs
          rw [lastComponent, if_neg hc, if_neg hac]
          rfl
        | cons t ts =>
          rw [List.getLastD_cons, lastComponent]
          have h1 : c ∈ rest := by
            by_contra hno
            rw [splitCh_of_not_mem hno] at hr
            cases hr
          rw [if_pos h1, ← ih, List.getLastD_cons, List.getLastD_cons,
            List.getLastD_cons]

theorem startsWithLColon_eq_false_of_not_colon {t : List Char}
    (h : ':' ∉ t) : startsWithLColon t = false := by
  match t with
  | [] => rfl
  | [a] => rfl
  | a :: b :: r =>
    rw [startsWithLColon]
    have hb : b ≠ ':' := by
      intro e
      exact h (e ▸ List.mem_cons_of_mem a (List.mem_cons_self b r))
    simp [hb]

/-- **C5.** The location normalizer `clean_location_name` is a total Lean
function; it maps a missing/null input (`none`) to itself, and it is
idempotent on every input, missing inputs included. -/
theorem claim_C5_normalizer_idem (x : Option String) :
    clean_location_name none = none ∧
    clean_location_name (clean_location_name x) = clean_location_name x := by
  refine ⟨rfl, ?_⟩
  cases x with
  | none => rfl
  | some s =>
    by_cases hs : startsWithLColon s.toList = true
    · rw [clean_location_name, if_pos hs, splitCh_getLastD, clean_location_name]
      have hnc : ':' ∉ lastComponent ':' s.toList := not_mem_lastComponent _ _
      have : (String.mk (lastComponent ':' s.toList)).toList
          = lastComponent ':' s.toList := rfl
      rw [this, startsWithLColon_eq_false_of_not_colon hnc]
      simp
    · rw [clean_location_name, if_neg hs, clean_location_name, if_neg hs]

/-- **C6.** On string inputs the normalizer returns the final
colon-delimited component whenever the string starts with `"L:"`, and
returns every other string unchanged; in particular
`clean_location_name "L:A:B:C" = "C"` and `"PlainName"` is unchanged. -/
theorem claim_C6_normalizer_split (s : String) :
    (startsWithLColon s.toList = true →
        clean_location_name (some s) = some (finalComponent s))
    ∧ (startsWithLColon s.toList = false →
        clean_location_name (some s) = some s)
    ∧ clean_location_name (some "L:A:B:C") = some "C"
    ∧ clean_location_name (some "PlainName") = some "PlainName" := by
  refine ⟨fun h => ?_, fun h => ?_, by decide, by decide⟩
  · rw [clean_location_name, if_pos h, splitCh_getLastD]
    rfl
  · rw [clean_location_name, if_neg (by rw [h]; exact Bool.false_ne_true)]

/-- Witness for C6 at the two concrete labels of the claim. -/
theorem claim_C6_witness :
    clean_location_name (some "L:A:B:C") = some (finalComponent "L:A:B:C")
    ∧ clean_location_name (some "PlainName") = some "PlainName" :=
  ⟨(claim_C6_normalizer_split "L:A:B:C").1 (by decide),
   (claim_C6_normalizer_split "PlainName").2.1 (by decide)⟩

/-! ### Lemmas about the per-agent transition classifier -/

theorem inLocSet_iff {loc : Option String} {S : List String} :
    inLocSet loc S = true ↔ ∃ s ∈ S, loc = some s := by
  cases loc with
  | none => simp [inLocSet]
  | some v =>
    simp only [inLocSet, decide_eq_true_eq, Option.some.injEq]
    constructor
    · exact fun h => ⟨v, h, rfl⟩
    · rintro ⟨s, hs, rfl⟩; exact hs

theorem isLoc_iff {loc : Option String} {t : String} :
    isLoc loc t = true ↔ loc = some t := by
  cases loc with
  | none => simp [isLoc]
  | some v => simp [isLoc]

/-- With the flag `went_to_idp_first` already set, the rest of the scan
succeeds exactly when some later movement is at the destination. -/
theorem transitionScan_staged (S : List String) (d : String)
    (l : List Movement) :
    transitionScan S d l true = true ↔ ∃ b ∈ l, b.location = some d := by
  induction l with
  | nil => simp [transitionScan]
  | cons m rest ih =>
    rw [transitionScan]
    simp only [Bool.not_true, Bool.and_false, Bool.false_eq_true, if_false,
      Bool.and_true]
    by_cases hd : isLoc m.location d = true
    · rw [if_pos hd]
      simp only [true_iff]
      exact ⟨m, List.mem_cons_self m rest, isLoc_iff.mp hd⟩
    · rw [if_neg hd, ih]
      have hmd : m.location ≠ some d := fun e => hd (isLoc_iff.mpr e)
      constructor
      · rintro ⟨b, hb, hbd⟩
        exact ⟨b, List.mem_cons_of_mem m hb, hbd⟩
      · rintro ⟨b, hb, hbd⟩
        rcases List.mem_cons.mp hb with rfl | hb
        · exact absurd hbd hmd
        · exact ⟨b, hb, hbd⟩

/-- With the flag still unset and the two location sets disjoint, the scan
succeeds exactly when the history decomposes into a prefix, a staging-set
movement, and a suffix containing a destination movement. -/
theorem transitionScan_unstaged (S : List String) (d : String)
    (l : List Movement) :
    transitionScan S d l false = true ↔
      ∃ l1 a l2, l = l1 ++ a :: l2 ∧ (∃ s ∈ S, a.location = some s) ∧
        ∃ b ∈ l2, b.location = some d := by
  induction l with
  | nil => simp [transitionScan]
  | cons m rest ih =>
    rw [transitionScan]
    by_cases hm : inLocSet m.location S = true
    · rw [if_pos (by simp [hm])]
      rw [transitionScan_staged]
      constructor
      · rintro ⟨b, hb, hbd⟩
        exact ⟨[], m, rest, rfl, inLocSet_iff.mp hm, b, hb, hbd⟩
      · rintro ⟨l1, a, l2, heq, _, b, hb, hbd⟩
        cases l1 with
        | nil =>
          rw [List.nil_append] at heq
          injection heq with h1 h2
          exact ⟨b, h2 ▸ hb, hbd⟩
        | cons x l1x =>
          rw [List.cons_append] at heq
          injection heq with h1 h2
          exact ⟨b, h2 ▸ List.mem_append_right l1x (List.mem_cons_of_mem a hb),
            hbd⟩
    · rw [if_neg (by simp [hm]), if_neg (by simp), ih]
      constructor
      · rintro ⟨l1, a, l2, heq, ha, hb⟩
        exact ⟨m :: l1, a, l2, by rw [heq, List.cons_append], ha, hb⟩
      · rintro ⟨l1, a, l2, heq, ha, hb⟩
        cases l1 with
        | nil =>
          rw [List.nil_append] at heq
          injection heq with h1 h2
          exact absurd (inLocSet_iff.mpr (h1 ▸ ha)) hm
        | cons x l1x =>
          rw [List.cons_append] at heq
          injection heq with h1 h2
          exact ⟨l1x, a, l2, h2, ha, hb⟩

/-- Once the scan has decided `true`, appending further movements to the
history cannot change the result. -/
theorem transitionScan_append (S : List String) (d : String)
    (l extra : List Movement) (staged : Bool)
    (h : transitionScan S d l staged = true) :
    transitionScan S d (l ++ extra) staged = true := by
  induction l generalizing staged with
  | nil => rw [transitionScan] at h; cases h
  | cons m rest ih =>
    rw [List.cons_append, transitionScan]
    rw [transitionScan] at h
    by_cases h1 : (inLocSet m.location S && !staged) = true
    · rw [if_pos h1] at h
      rw [if_pos h1]
      exact ih true h
    · rw [if_neg h1] at h
      rw [if_neg h1]
      by_cases h2 : (isLoc m.location d && staged) = true
      · rw [if_pos h2]
      · rw [if_neg h2] at h
        rw [if_neg h2]
        exact ih staged h

/-- The specification-side transition predicate of C1: some position `i`
of the history holds a staging-set location and some strictly later
position `j` holds a destination-set location (the destination set of the
source being the singleton `{dest}`). -/
def TransitionWitness (S : List String) (d : String)
    (l : List Movement) : Prop :=
  ∃ (i j : ℕ) (a b : Movement), i < j ∧ l[i]? = some a ∧ l[j]? = some b ∧
    (∃ s ∈ S, a.location = some s) ∧ b.location = some d

theorem transitionWitness_iff_decomp (S : List String) (d : String)
    (l : List Movement) :
    TransitionWitness S d l ↔
      ∃ l1 a l2, l = l1 ++ a :: l2 ∧ (∃ s ∈ S, a.location = some s) ∧
        ∃ b ∈ l2, b.location = some d := by
  constructor
  · rintro ⟨i, j, a, b, hij, hia, hjb, ha, hb⟩
    obtain ⟨hi, hgi⟩ := List.getElem?_eq_some.mp hia
    refine ⟨l.take i, a, l.drop (i + 1), ?_, ha, b, ?_, hb⟩
    · conv_lhs => rw [← List.take_append_drop i l]
      rw [List.drop_eq_getElem_cons hi, hgi]
    · have hdrop : (l.drop (i + 1))[j - (i + 1)]? = some b := by
        rw [List.getElem?_drop]
        have : i + 1 + (j - (i + 1)) = j := by omega
        rw [this, hjb]
      exact List.mem_iff_getElem?.mpr ⟨_, hdrop⟩
  · rintro ⟨l1, a, l2, rfl, ha, b, hbmem, hb⟩
    obtain ⟨k, hk⟩ := List.mem_iff_getElem?.mp hbmem
    refine ⟨l1.length, l1.length + 1 + k, a, b, by omega, ?_, ?_, ha, hb⟩
    · rw [List.getElem?_append_right (le_refl _)]
      simp
    · rw [List.getElem?_append_right (by omega : l1.length ≤ l1.length + 1 + k)]
      have : l1.length + 1 + k - l1.length = k + 1 := by omega
      rw [this, List.getElem?_cons_succ, hk]

/-- **C1.** With the staging and destination sets disjoint, the per-agent
loop of `calculate_transition_probability` classifies a history as
transitioned if and only if some position holds a staging-set location and
some strictly later position holds the destination; in particular any
two-movement history `[staging, destination]` is transitioned, and
appending further movements to an already-transitioned history leaves it
transitioned. -/
theorem claim_C1_transition_classifier (S : List String) (d : String)
    (l extra : List Movement) (hd : d ∉ S) :
    (agentTransitioned S d l = true ↔ TransitionWitness S d l)
    ∧ (∀ a b : Movement, (∃ s ∈ S, a.location = some s) →
        b.location = some d → agentTransitioned S d [a, b] = true)
    ∧ (agentTransitioned S d l = true →
        agentTransitioned S d (l ++ extra) = true) := by
  have hiff : ∀ l' : List Movement,
      agentTransitioned S d l' = true ↔ TransitionWitness S d l' := by
    intro l'
    rw [agentTransitioned, transitionScan_unstaged S d,
      transitionWitness_iff_decomp]
  refine ⟨hiff l, ?_, ?_⟩
  · intro a b ha hb
    refine (hiff [a, b]).mpr ⟨0, 1, a, b, Nat.zero_lt_one, rfl, rfl, ha, hb⟩
  · intro h
    exact transitionScan_append S d l extra false h

/-- Witness for C1: the concrete two-step history Sittwe (staging) then
Cox's Bazar (destination) is classified transitioned by the source's
hardcoded configuration. -/
theorem claim_C1_witness :
    agentTransitioned IDP_CAMPS COXS_BAZAR
      [⟨0, some "Sittwe"⟩, ⟨1, some COXS_BAZAR⟩] = true :=
  (claim_C1_transition_classifier IDP_CAMPS COXS_BAZAR [] [] (by decide)).2.1
    ⟨0, some "Sittwe"⟩ ⟨1, some COXS_BAZAR⟩
    ⟨"Sittwe", by decide, rfl⟩ rfl

/-- **C2, counterexample.** The claim asserts that the history
`[destination, staging, destination]` is classified not-transitioned; on
the code it is classified transitioned: the leading destination visit
merely has no effect, it does not block the later staging→destination
pair. -/
theorem claim_C2_counterexample :
    ¬ (agentTransitioned IDP_CAMPS COXS_BAZAR
        [⟨0, some COXS_BAZAR⟩, ⟨1, some "Sittwe"⟩, ⟨2, some COXS_BAZAR⟩]
      = false) := by decide

/-- **C2, amended.** For the history `[destination, staging, destination]`
the classifier returns transitioned = true: the staging visit at position 1
is followed by the destination visit at position 2, and a destination
visit before any staging visit has no effect on the scan. -/
theorem claim_C2_amended :
    agentTransitioned IDP_CAMPS COXS_BAZAR
      [⟨0, some COXS_BAZAR⟩, ⟨1, some "Sittwe"⟩, ⟨2, some COXS_BAZAR⟩]
    = true := by decide

/-! ### Run-level invariants and edge cases -/

/-- **C4.** For every agent-movement map, the returned `RunResult` has
`transition_count ≤ total_agents` (each map entry is counted at most once,
`total_agents` being the number of entries) and a transition probability
between `0` and `1`. -/
theorem claim_C4_probability_bounds (m : List (ℕ × List Movement)) :
    (calculate_transition_probability m).transition_agents
      ≤ (calculate_transition_probability m).total_agents
    ∧ 0 ≤ (calculate_transition_probability m).transition_probability
    ∧ (calculate_transition_probability m).transition_probability ≤ 1 := by
  have hle :
      (m.filter
        (fun p => agentTransitioned IDP_CAMPS COXS_BAZAR p.2)).length
      ≤ m.length := List.length_filter_le _ _
  refine ⟨hle, ?_, ?_⟩
  · simp only [calculate_transition_probability]
    split
    · positivity
    · exact le_refl 0
  · simp only [calculate_transition_probability]
    split
    · rw [div_le_one (by exact_mod_cast ‹0 < m.length›)]
      exact_mod_cast hle
    · exact zero_le_one

/-- **C7.** With zero agents the probability is `0` by the guarded
convention of lines 114-118 (the division is never evaluated, so no
exception arises — the embedding is a total function); with at least one
agent it is exactly `transition_count / total_agents`. -/
theorem claim_C7_empty_run (m : List (ℕ × List Movement)) :
    (m.length = 0 → (calculate_transition_probability m).transition_probability = 0)
    ∧ (0 < m.length →
        (calculate_transition_probability m).transition_probability =
          ((calculate_transition_probability m).transition_agents : ℚ) /
            ((calculate_transition_probability m).total_agents : ℚ)) := by
  constructor
  · intro h
    simp only [calculate_transition_probability]
    rw [if_neg (by omega)]
  · intro h
    simp only [calculate_transition_probability]
    rw [if_pos h]

/-- Witness for C7: the empty map yields probability `0`, and a one-agent
map yields the quotient of the two counters. -/
theorem claim_C7_witness :
    (calculate_transition_probability []).transition_probability = 0
    ∧ (calculate_transition_probability [(0, [])]).transition_probability =
        ((calculate_transition_probability [(0, [])]).transition_agents : ℚ) /
          ((calculate_transition_probability [(0, [])]).total_agents : ℚ) :=
  ⟨(claim_C7_empty_run []).1 rfl,
   (claim_C7_empty_run [(0, [])]).2 (by decide)⟩

/-! ### Cross-run aggregation -/

/-- **C3.** For an instance with `n ≥ 1` per-run probabilities, the mean is
the arithmetic mean (`mean · n = sum`), the standard deviation is `0` when
`n = 1` and the nonnegative square root of the `n-1`-denominator sample
variance when `n ≥ 2`; on the concrete runs `[0.2, 0.4, 0.6]` the mean is
`0.4` and the sample standard deviation is `0.2`. -/
theorem claim_C3_instance_stats (l : List ℚ) (h : 1 ≤ l.length) :
    npMean l * (l.length : ℚ) = l.sum
    ∧ (l.length = 1 → instanceStd l = 0)
    ∧ (2 ≤ l.length →
        0 ≤ instanceStd l ∧ (instanceStd l) ^ 2 = ((sampleVar l : ℚ) : ℝ))
    ∧ npMean [(0.2 : ℚ), 0.4, 0.6] = 0.4
    ∧ instanceStd [(0.2 : ℚ), 0.4, 0.6] = 0.2 := by
  have hvar_nonneg : ∀ l' : List ℚ, 2 ≤ l'.length → 0 ≤ sampleVar l' := by
    intro l' h2
    apply div_nonneg
    · apply List.sum_nonneg
      intro x hx
      obtain ⟨y, _, rfl⟩ := List.mem_map.mp hx
      positivity
    · have : (2 : ℚ) ≤ (l'.length : ℚ) := by exact_mod_cast h2
      linarith
  refine ⟨?_, fun h1 => ?_, fun h2 => ⟨?_, ?_⟩, ?_, ?_⟩
  · rw [npMean, div_mul_cancel₀]
    have : (0 : ℚ) < (l.length : ℚ) := by exact_mod_cast h
    exact ne_of_gt this
  · rw [instanceStd, if_neg (by omega)]
  · rw [instanceStd, if_pos (by omega)]
    exact Real.sqrt_nonneg _
  · rw [instanceStd, if_pos (by omega)]
    rw [Real.sq_sqrt]
    exact_mod_cast hvar_nonneg l h2
  · rw [npMean]
    norm_num
  · rw [instanceStd, if_pos (by norm_num)]
    have hv : sampleVar [(0.2 : ℚ), 0.4, 0.6] = 1 / 25 := by
      rw [sampleVar, npMean]
      norm_num
    rw [hv]
    rw [show (((1 / 25 : ℚ) : ℝ)) = (1 / 5 : ℝ) ^ 2 by norm_num]
    rw [Real.sqrt_sq (by norm_num)]
    norm_num

/-- Witness for C3 at the concrete probability lists of the claim. -/
theorem claim_C3_witness :
    npMean [(0.2 : ℚ), 0.4, 0.6] = 0.4
    ∧ instanceStd [(0.2 : ℚ), 0.4, 0.6] = 0.2
    ∧ instanceStd [(0.5 : ℚ)] = 0 :=
  ⟨(claim_C3_instance_stats [(0.2 : ℚ), 0.4, 0.6] (by norm_num)).2.2.2.1,
   (claim_C3_instance_stats [(0.2 : ℚ), 0.4, 0.6] (by norm_num)).2.2.2.2,
   (claim_C3_instance_stats [(0.5 : ℚ)] (by norm_num)).2.1 rfl⟩

/-! ### Loader row handling -/

theorem histOf_addMovement (acc : List (ℕ × List Movement)) (i : ℕ)
    (m : Movement) :
    histOf (addMovement acc i m) i = histOf acc i ++ [m] := by
  induction acc with
  | nil => simp [addMovement, histOf]
  | cons p rest ih =>
    obtain ⟨j, h⟩ := p
    by_cases hij : i = j
    · subst hij
      rw [addMovement, if_pos rfl, histOf, if_pos rfl, histOf, if_pos rfl]
    · rw [addMovement, if_neg hij, histOf,
        if_neg (fun e : j = i => hij e.symm), histOf,
        if_neg (fun e : j = i => hij e.symm)]
      exact ih

/-- A row the loop cannot resolve leaves the accumulator unchanged. -/
theorem processRow_skip {r : Row}
    (h : rowAgentId r = none ∨ rowDay r = none)
    (acc : List (ℕ × List Movement)) : processRow acc r = acc := by
  rcases h with h | h
  · rw [processRow, h]
  · rw [processRow, h]
    cases rowAgentId r <;> rfl

/-- Filtering out the unusable rows does not change the built map. -/
theorem buildMovements_filter_aux (rows : List Row) :
    ∀ acc : List (ℕ × List Movement),
      (rows.filter
        (fun r => (rowAgentId r).isSome && (rowDay r).isSome)).foldl
          processRow acc
      = rows.foldl processRow acc := by
  induction rows with
  | nil => intro acc; rfl
  | cons r rest ih =>
    intro acc
    by_cases hu : ((rowAgentId r).isSome && (rowDay r).isSome) = true
    · rw [List.filter_cons, if_pos hu, List.foldl_cons, List.foldl_cons, ih]
    · rw [List.filter_cons, if_neg hu, List.foldl_cons]
      have hskip : rowAgentId r = none ∨ rowDay r = none := by
        rw [Bool.and_eq_true, not_and_or] at hu
        rcases hu with h | h
        · exact Or.inl (Option.not_isSome_iff_eq_none.mp h)
        · exact Or.inr (Option.not_isSome_iff_eq_none.mp h)
      rw [processRow_skip hskip, ih]

/-- **C9.** A row without a resolvable agent id or time value is skipped
(the accumulated histories are unchanged, and such rows can be erased from
the input without changing the built map — they end up in no agent's
history); a row with both values resolvable is appended to exactly that
agent's history. -/
theorem claim_C9_row_skipping (rows : List Row)
    (acc : List (ℕ × List Movement)) (r : Row) (i : ℕ) (d : Int) :
    (rowAgentId r = none ∨ rowDay r = none → processRow acc r = acc)
    ∧ (rowAgentId r = some i → rowDay r = some d →
        processRow acc r = addMovement acc i ⟨d, r.current_location⟩
        ∧ histOf (processRow acc r) i
            = histOf acc i ++ [⟨d, r.current_location⟩])
    ∧ buildMovements
        (rows.filter (fun r => (rowAgentId r).isSome && (rowDay r).isSome))
      = buildMovements rows := by
  refine ⟨fun h => processRow_skip h acc, fun hi hd => ?_,
    buildMovements_filter_aux rows []⟩
  have heq : processRow acc r = addMovement acc i ⟨d, r.current_location⟩ := by
    rw [processRow, hi, hd]
  exact ⟨heq, by rw [heq, histOf_addMovement]⟩

/-- Witness for C9: a row with only a `timestep` time and an `agent_id` id
is appended; a row with no id column resolvable is skipped. -/
theorem claim_C9_witness :
    (processRow [] ⟨none, some 7, none, some 3, some "X"⟩
        = addMovement [] 7 ⟨3, some "X"⟩
      ∧ histOf (processRow [] ⟨none, some 7, none, some 3, some "X"⟩) 7
          = histOf ([] : List (ℕ × List Movement)) 7 ++ [⟨3, some "X"⟩])
    ∧ processRow [] ⟨none, none, some 3, none, some "Y"⟩ = [] :=
  ⟨(claim_C9_row_skipping [] [] ⟨none, some 7, none, some 3, some "X"⟩ 7 3).2.1
      rfl rfl,
   (claim_C9_row_skipping [] [] ⟨none, none, some 3, none, some "Y"⟩ 0 0).1
      (Or.inl rfl)⟩

/-! ### Instance aggregation over runs -/

/-- `scanRuns` distributes over list append: probabilities concatenate and
warning counts add. -/
theorem scanRuns_append (l1 l2 : List (Option FileData)) :
    scanRuns (l1 ++ l2)
      = ((scanRuns l1).1 ++ (scanRuns l2).1,
         (scanRuns l1).2 + (scanRuns l2).2) := by
  induction l1 with
  | nil => simp [scanRuns]
  | cons r rest ih =>
    rw [List.cons_append]
    cases r with
    | none =>
      rw [scanRuns, scanRuns, ih]
      simp [Nat.add_right_comm]
    | some fd =>
      by_cases hm : parse_agents_file fd = []
      · rw [scanRuns, scanRuns, ih]
        simp only [hm, if_pos rfl]
        simp [Nat.add_right_comm]
      · rw [scanRuns, scanRuns, ih]
        simp only [if_neg hm]
        rfl

/-- **C8.** A discovered run directory whose `agents.out.0` is missing
(`none`) is skipped — the probabilities collected from the remaining runs
are unchanged — while one warning is recorded for it; and an instance
whose scan produced zero probabilities yields `none`, which is distinct
from every actual summary (in particular from a summary with mean `0`). -/
theorem claim_C8_missing_artifact (pre post runs : List (Option FileData)) :
    ((scanRuns (pre ++ none :: post)).1 = (scanRuns (pre ++ post)).1
     ∧ (scanRuns (pre ++ none :: post)).2 = (scanRuns (pre ++ post)).2 + 1)
    ∧ ((scanRuns runs).1 = [] →
        process_instance_type runs = none
        ∧ ∀ x : ℚ × ℝ × List ℚ, process_instance_type runs ≠ some x) := by
  constructor
  · rw [scanRuns_append, scanRuns_append]
    have h1 : scanRuns (none :: post)
        = ((scanRuns post).1, (scanRuns post).2 + 1) := by
      rw [scanRuns]
    rw [h1]
    exact ⟨rfl, by omega⟩
  · intro h
    have hnone : process_instance_type runs = none := by
      rw [process_instance_type]
      simp [h]
    exact ⟨hnone, fun x hx => by rw [hnone] at hx; cases hx⟩

/-- Witness for C8: an instance whose single run directory misses its
artifact produces no summary at all. -/
theorem claim_C8_witness :
    process_instance_type [none] = none
    ∧ (scanRuns [none, none]).1 = (scanRuns [none]).1
    ∧ (scanRuns [none, none]).2 = (scanRuns [none]).2 + 1 :=
  ⟨((claim_C8_missing_artifact [] [] [none]).2 rfl).1,
   ((claim_C8_missing_artifact [none] [] [none]).1).1,
   ((claim_C8_missing_artifact [none] [] [none]).1).2⟩

/-- **C10.** `parse_agents_file` returns the empty map both on a read
exception and on a file whose rows are all unusable; a run whose parsed
map is empty is excluded from the instance entirely: the probability list
is as if the run were absent, and so the whole instance summary (mean,
standard deviation, run list) is computed only over runs whose parsed map
is nonempty. -/
theorem claim_C10_empty_runs (pre post : List (Option FileData))
    (fd : FileData) (rows : List Row) :
    parse_agents_file (Except.error ()) = []
    ∧ ((∀ r ∈ rows, rowAgentId r = none ∨ rowDay r = none) →
        parse_agents_file (Except.ok rows) = [])
    ∧ (parse_agents_file fd = [] →
        (scanRuns (pre ++ some fd :: post)).1 = (scanRuns (pre ++ post)).1
        ∧ process_instance_type (pre ++ some fd :: post)
            = process_instance_type (pre ++ post)) := by
  refine ⟨rfl, fun hall => ?_, fun hempty => ?_⟩
  · have hfilter : rows.filter
        (fun r => (rowAgentId r).isSome && (rowDay r).isSome) = [] := by
      rw [List.filter_eq_nil_iff]
      intro r hr
      rcases hall r hr with h | h <;> simp [h]
    rw [parse_agents_file, buildMovements, ← buildMovements_filter_aux rows [],
      hfilter]
    rfl
  · have hscan : (scanRuns (pre ++ some fd :: post)).1
        = (scanRuns (pre ++ post)).1 := by
      rw [scanRuns_append, scanRuns_append]
      have h1 : scanRuns (some fd :: post)
          = ((scanRuns post).1, (scanRuns post).2 + 1) := by
        rw [scanRuns]
        simp [hempty]
      rw [h1]
    refine ⟨hscan, ?_⟩
    rw [process_instance_type, process_instance_type, hscan]

/-- Witness for C10: a run whose file raised a read exception contributes
nothing, and the summary over `[error-run]` equals the summary over no
runs at all. -/
theorem claim_C10_witness :
    parse_agents_file (Except.error ()) = []
    ∧ (scanRuns [some (Except.error ())]).1 = (scanRuns []).1
    ∧ process_instance_type [some (Except.error ())]
        = process_instance_type [] :=
  ⟨(claim_C10_empty_runs [] [] (Except.error ()) []).1,
   ((claim_C10_empty_runs [] [] (Except.error ()) []).2.2 rfl).1,
   ((claim_C10_empty_runs [] [] (Except.error ()) []).2.2 rfl).2⟩

end RohingyaFlee
